import Mathlib

/-!
Verification of the break-even solver of `src/tbills.py` (class
`TreasuryBillAnalytics`).

Modelling conventions:

* Python integers are `ℤ`; Python floor division `//` is `Int.fdiv`.
* The numbers flowing through the table computation (`compute_break_even_rates`)
  are modelled as exact rationals `ℚ`; the symbolic algebra engine used by the
  source (sympy with 80-digit precision) is likewise modelled as exact
  arithmetic over `ℝ` in the solver.
* External library calls are modelled by their contracts:
  - `sympy.solve` (closed-form branch): an oracle returning some real solution
    of the polynomial equation, or `none` when no real solution exists.  The
    order of the solutions returned by `solve` is not part of its contract, so
    the oracle is only required to be sound and complete.
  - `sympy.nsolve(..., tol=1e-16)` (numeric branch): an oracle whose returned
    root `y` satisfies the verification performed by `mpmath.findroot`,
    namely `(f y)^2 <= tol`.  Non-convergence (an exception caught by the
    source's `try/except`) is `none`.
  - `polars.from_dicts` raises `NoDataError` when given an empty row list and
    no schema; this is the `PolarsError.noData` error case.
* A Python `dict` built with `dict(zip(keys, vals))` keeps one entry per key,
  at the position of the key's first occurrence, with the value of its last
  occurrence; `pyDict` below implements exactly that.
* `float('nan')` returned by the solver — filtered by `math.isfinite` in the
  caller — is modelled as `none`.
-/

/-- `TreasuryBillAnalytics._decompose_horizon_into_full_rolls_and_stub`:
`full_rolls = horizon_days // tenor_days` (Python floor division) and
`stub_days = horizon_days - full_rolls * tenor_days`. -/
def decompose_horizon_into_full_rolls_and_stub (horizon_days tenor_days : ℤ) :
    ℤ × ℤ :=
  let full_rolls : ℤ := Int.fdiv horizon_days tenor_days
  (full_rolls, horizon_days - full_rolls * tenor_days)

/-- One insertion step of a Python `dict`: replace the value in place if the
key is present, otherwise append the new binding at the end. -/
def pyDictInsert (d : List (ℤ × ℚ)) (k : ℤ) (v : ℚ) : List (ℤ × ℚ) :=
  if d.any (fun p => p.1 == k) then
    d.map (fun p => if p.1 = k then (k, v) else p)
  else
    d ++ [(k, v)]

/-- The Python `dict(zip(keys, vals))` built from an association list:
fold `pyDictInsert` over the bindings in order. -/
def pyDict (l : List (ℤ × ℚ)) : List (ℤ × ℚ) :=
  l.foldl (fun d p => pyDictInsert d p.1 p.2) []

/-- Error raised by `TreasuryBillAnalytics.__init__` (a Python `ValueError`). -/
inductive InitError where
  | missingColumns
deriving DecidableEq

/-- Error raised by `polars.from_dicts` on an empty row list (`NoDataError`). -/
inductive PolarsError where
  | noData
deriving DecidableEq

instance {ε α : Type} [DecidableEq ε] [DecidableEq α] : DecidableEq (Except ε α) :=
  fun x y =>
    match x, y with
    | .error a, .error b =>
      if h : a = b then .isTrue (by rw [h]) else .isFalse (by simp [h])
    | .ok a, .ok b =>
      if h : a = b then .isTrue (by rw [h]) else .isFalse (by simp [h])
    | .error _, .ok _ => .isFalse (by simp)
    | .ok _, .error _ => .isFalse (by simp)

/-- The input `polars` table: its column names and its
(`maturity`, `yield_pct`) rows.  `maturity` is a tenor in weeks and
`yield_pct` a coupon-equivalent yield in percent. -/
structure InputTable where
  columns : List String
  rows : List (ℤ × ℚ)
deriving DecidableEq

/-- The state built by `TreasuryBillAnalytics.__init__`:
`cey_by_weeks` (tenor weeks ↦ decimal yield), the sorted tenor list, and the
two convention constants. -/
structure AnalyticsState where
  ceyByWeeks : List (ℤ × ℚ)
  availableTenorsWeeks : List ℤ
  dayCountBase : ℤ
  daysPerWeek : ℤ
deriving DecidableEq

/-- `TreasuryBillAnalytics.__init__`: raise `ValueError` when a required
column is missing, otherwise build `cey_by_weeks = dict(zip(maturity,
yield_pct / 100))` and `available_tenors_weeks = sorted(keys)`. -/
def mkTreasuryBillAnalytics (t : InputTable) (day_count_base days_per_week : ℤ) :
    Except InitError AnalyticsState :=
  if "maturity" ∈ t.columns ∧ "yield_pct" ∈ t.columns then
    let cey := pyDict (t.rows.map (fun r => (r.1, r.2 / 100)))
    Except.ok
      { ceyByWeeks := cey
        availableTenorsWeeks := (cey.map Prod.fst).insertionSort (· ≤ ·)
        dayCountBase := day_count_base
        daysPerWeek := days_per_week }
  else
    Except.error InitError.missingColumns

/-- Looking a key up in the association-list model of a Python `dict`:
the first binding with the sought key (key sets are kept duplicate-free by
`pyDictInsert`). -/
def pyLookup (k : ℤ) : List (ℤ × ℚ) → Option ℚ
  | [] => none
  | p :: rest => if p.1 = k then some p.2 else pyLookup k rest

/-- Subscripting `self.cey_by_weeks[w]`; the callers only subscript with keys
of the dict, so the default value is never reached. -/
def dictGet (d : List (ℤ × ℚ)) (k : ℤ) : ℚ :=
  (pyLookup k d).getD 0

/-- `TreasuryBillAnalytics._sympy_accumulation_factor_constant_cey` evaluated
exactly: `(1 + y*m/dc)^k * (1 + y*r/dc)` with `(k, r)` the decomposition of
`horizon_days` by `tenor_days`. -/
def sympy_accumulation_factor_constant_cey (y : ℚ)
    (tenor_days horizon_days day_count_base : ℤ) : ℚ :=
  let kr := decompose_horizon_into_full_rolls_and_stub horizon_days tenor_days
  (1 + y * (tenor_days : ℚ) / (day_count_base : ℚ)) ^ kr.1 *
    (1 + y * (kr.2 : ℚ) / (day_count_base : ℚ))

/-- Rounding to the nearest integer, ties to even — the rule of Python's
built-in `round`. -/
def roundHalfEven (x : ℚ) : ℤ :=
  if x - (⌊x⌋ : ℚ) < 1 / 2 then ⌊x⌋
  else if x - (⌊x⌋ : ℚ) > 1 / 2 then ⌊x⌋ + 1
  else if Even ⌊x⌋ then ⌊x⌋ else ⌊x⌋ + 1

/-- Python's `round(x, decimals)` on exact values. -/
def pyRound (decimals : ℕ) (x : ℚ) : ℚ :=
  (roundHalfEven (x * 10 ^ decimals) : ℚ) / 10 ^ decimals

/-- One row of the output table of `compute_break_even_rates`. -/
structure ResultRow where
  shorterWeeks : ℤ
  shorterCeyPct : ℚ
  longerWeeks : ℤ
  longerCeyPct : ℚ
  breakEvenPct : ℚ
deriving DecidableEq

/-- The order `polars` sorts the output by: longer maturity ascending, then
shorter maturity ascending. -/
def rowLe (a b : ResultRow) : Prop :=
  a.longerWeeks < b.longerWeeks ∨
    (a.longerWeeks = b.longerWeeks ∧ a.shorterWeeks ≤ b.shorterWeeks)

instance : DecidableRel rowLe := fun a b => by
  unfold rowLe; infer_instance

instance : IsTotal ResultRow rowLe :=
  ⟨fun a b => by unfold rowLe; omega⟩

instance : IsTrans ResultRow rowLe :=
  ⟨fun a b c => by unfold rowLe; omega⟩

/-- The `results` list built by the pair loop of
`TreasuryBillAnalytics.compute_break_even_rates`.  The numeric solver
`_solve_y_be_self_consistent_against_accumulation_level` is abstracted as the
oracle `solveY (target, short_tenor_days, horizon_days)`; `none` stands for a
non-finite (`nan`) yield, filtered out by `math.isfinite`.  The horizon passed
to every decomposition and to the solver is `self.day_count_base`. -/
def break_even_results (solveY : ℚ → ℤ → ℤ → Option ℚ) (s : AnalyticsState)
    (decimals : ℕ) : List ResultRow :=
  s.availableTenorsWeeks.flatMap (fun longerWeeks =>
    let mLongDays := longerWeeks * s.daysPerWeek
    if mLongDays > s.dayCountBase then []
    else
      let yLongDec := dictGet s.ceyByWeeks longerWeeks
      let rhsAccumVal :=
        sympy_accumulation_factor_constant_cey yLongDec mLongDays
          s.dayCountBase s.dayCountBase
      s.availableTenorsWeeks.flatMap (fun shorterWeeks =>
        if shorterWeeks ≥ longerWeeks then []
        else
          let mShortDays := shorterWeeks * s.daysPerWeek
          if mShortDays > s.dayCountBase then []
          else
            match solveY rhsAccumVal mShortDays s.dayCountBase with
            | none => []
            | some yBeDec =>
              [{ shorterWeeks := shorterWeeks
                 shorterCeyPct :=
                   pyRound decimals (100 * dictGet s.ceyByWeeks shorterWeeks)
                 longerWeeks := longerWeeks
                 longerCeyPct :=
                   pyRound decimals (100 * dictGet s.ceyByWeeks longerWeeks)
                 breakEvenPct := pyRound decimals (100 * yBeDec) }]))

/-- `TreasuryBillAnalytics.compute_break_even_rates`: build the pair rows,
then `polars.from_dicts(results).sort(longer, shorter)` — which raises
`NoDataError` when `results` is empty. -/
def compute_break_even_rates (solveY : ℚ → ℤ → ℤ → Option ℚ)
    (s : AnalyticsState) (decimals : ℕ) :
    Except PolarsError (List ResultRow) :=
  let results := break_even_results solveY s decimals
  if results = [] then Except.error PolarsError.noData
  else Except.ok (results.insertionSort rowLe)

/-- Modelled from the spec: the row list of the public operation
`compute_break_even_table` of spec §4.2, which takes `horizon_days` as a
parameter independent of the day-count base.  The repository's code has no
such parameter; this definition exists to compare the spec's interface with
the code's. -/
def spec_break_even_results (solveY : ℚ → ℤ → ℤ → Option ℚ)
    (s : AnalyticsState) (horizon_days : ℤ) (decimals : ℕ) : List ResultRow :=
  s.availableTenorsWeeks.flatMap (fun longerWeeks =>
    let mLongDays := longerWeeks * s.daysPerWeek
    if mLongDays > horizon_days then []
    else
      let yLongDec := dictGet s.ceyByWeeks longerWeeks
      let rhsAccumVal :=
        sympy_accumulation_factor_constant_cey yLongDec mLongDays
          horizon_days s.dayCountBase
      s.availableTenorsWeeks.flatMap (fun shorterWeeks =>
        if shorterWeeks ≥ longerWeeks then []
        else
          let mShortDays := shorterWeeks * s.daysPerWeek
          if mShortDays > horizon_days then []
          else
            match solveY rhsAccumVal mShortDays horizon_days with
            | none => []
            | some yBeDec =>
              [{ shorterWeeks := shorterWeeks
                 shorterCeyPct :=
                   pyRound decimals (100 * dictGet s.ceyByWeeks shorterWeeks)
                 longerWeeks := longerWeeks
                 longerCeyPct :=
                   pyRound decimals (100 * dictGet s.ceyByWeeks longerWeeks)
                 breakEvenPct := pyRound decimals (100 * yBeDec) }]))

/-- Modelled from the spec: `compute_break_even_table(quotes, horizon_days,
days_per_week, rounding_decimals)` of spec §4.2 with an independently
settable horizon. -/
def compute_break_even_table_spec (solveY : ℚ → ℤ → ℤ → Option ℚ)
    (s : AnalyticsState) (horizon_days : ℤ) (decimals : ℕ) :
    Except PolarsError (List ResultRow) :=
  let results := spec_break_even_results solveY s horizon_days decimals
  if results = [] then Except.error PolarsError.noData
  else Except.ok (results.insertionSort rowLe)

/-- The two external root-extraction capabilities the solver calls.
`nsolve f seed` models `sympy.nsolve(f_expr, y, seed, tol=1e-16, maxsteps=200,
prec=80)`: `some root` when it converges, `none` when it raises (caught by the
source's `try/except`).  `solveEq m dc k target` models
`sympy.solve(Eq((1 + y*m/dc)**k, target), y)` followed by taking the first
returned solution: `some y` for one of the real solutions, `none` when the
solution list is empty. -/
structure SolverEnv where
  nsolve : (ℝ → ℝ) → ℝ → Option ℝ
  solveEq : ℤ → ℤ → ℤ → ℝ → Option ℝ

/-- The tolerance the source passes to `sympy.nsolve`. -/
noncomputable def nsolve_tol : ℝ := 1 / 10 ^ 16

/-- Contract of `sympy.nsolve`: `mpmath.findroot` verifies the returned root
and raises unless the squared residual is at most `tol`, so any root that is
returned (rather than raising) satisfies `(f root)^2 ≤ tol`. -/
def NsolveSound (env : SolverEnv) : Prop :=
  ∀ f seed root, env.nsolve f seed = some root → (f root) ^ 2 ≤ nsolve_tol

/-- Soundness contract of `sympy.solve`: anything returned solves the
equation `(1 + y*m/dc)^k = target` over the reals. -/
def SolveEqSound (env : SolverEnv) : Prop :=
  ∀ (m dc k : ℤ) (target y : ℝ), env.solveEq m dc k target = some y →
    (1 + y * (m : ℝ) / (dc : ℝ)) ^ k = target

/-- Completeness contract of `sympy.solve`: when the equation has a real
solution, the returned solution list is non-empty. -/
def SolveEqComplete (env : SolverEnv) : Prop :=
  ∀ (m dc k : ℤ) (target : ℝ),
    (∃ y : ℝ, (1 + y * (m : ℝ) / (dc : ℝ)) ^ k = target) →
    (env.solveEq m dc k target).isSome

/-- The residual `f(y) = (1 + y*m_s/dc)^k_s * (1 + y*r_s/dc) - target` whose
root the stub branch of
`_solve_y_be_self_consistent_against_accumulation_level` finds (`f_expr` in
the source). -/
noncomputable def accumulation_residual (target : ℝ)
    (short_tenor_days horizon_days day_count_base : ℤ) (y : ℝ) : ℝ :=
  let kr := decompose_horizon_into_full_rolls_and_stub horizon_days short_tenor_days
  (1 + y * (short_tenor_days : ℝ) / (day_count_base : ℝ)) ^ kr.1 *
    (1 + y * (kr.2 : ℝ) / (day_count_base : ℝ)) - target

/-- The fractional-roll initial guess of the stub branch:
`(target^(m_s/H) - 1) * dc / m_s`. -/
noncomputable def initial_guess (target : ℝ)
    (short_tenor_days horizon_days day_count_base : ℤ) : ℝ :=
  (target ^ ((short_tenor_days : ℝ) / (horizon_days : ℝ)) - 1) *
    (day_count_base : ℝ) / (short_tenor_days : ℝ)

/-- The three seeds the stub branch tries, in order: the fractional-roll
guess, then the guess minus and plus 0.02. -/
noncomputable def nsolve_seeds (target : ℝ)
    (short_tenor_days horizon_days day_count_base : ℤ) : List ℝ :=
  [initial_guess target short_tenor_days horizon_days day_count_base,
   initial_guess target short_tenor_days horizon_days day_count_base - 0.02,
   initial_guess target short_tenor_days horizon_days day_count_base + 0.02]

open Classical in
/-- The seed loop of the stub branch: call `nsolve` at each seed in order;
on convergence return the root when both period-growth feasibility checks
`1 + root*m_s/dc > 0` and `1 + root*r_s/dc > 0` pass, otherwise (as on
non-convergence) continue with the next seed; `nan` (`none`) when the seeds
are exhausted. -/
noncomputable def try_seeds (env : SolverEnv) (f : ℝ → ℝ)
    (short_tenor_days stub_days day_count_base : ℤ) : List ℝ → Option ℝ
  | [] => none
  | seed :: rest =>
    match env.nsolve f seed with
    | none => try_seeds env f short_tenor_days stub_days day_count_base rest
    | some root =>
      if 0 < 1 + root * (short_tenor_days : ℝ) / (day_count_base : ℝ) ∧
          0 < 1 + root * (stub_days : ℝ) / (day_count_base : ℝ) then
        some root
      else try_seeds env f short_tenor_days stub_days day_count_base rest

/-- `TreasuryBillAnalytics._solve_y_be_self_consistent_against_accumulation_level`:
decompose the horizon by the short tenor; `nan` (`none`) when no full roll
fits; with no stub take the first solution `sympy.solve` returns for the
closed-form equation; with a stub run the seeded `nsolve` loop. -/
noncomputable def solve_y_be_self_consistent_against_accumulation_level
    (env : SolverEnv) (target_accumulation_level : ℝ)
    (short_tenor_days horizon_days day_count_base : ℤ) : Option ℝ :=
  let kr := decompose_horizon_into_full_rolls_and_stub horizon_days short_tenor_days
  if kr.1 ≤ 0 then none
  else if kr.2 = 0 then
    match env.solveEq short_tenor_days day_count_base kr.1
        target_accumulation_level with
    | none => none
    | some y => some y
  else
    try_seeds env
      (accumulation_residual target_accumulation_level short_tenor_days
        horizon_days day_count_base)
      short_tenor_days kr.2 day_count_base
      (nsolve_seeds target_accumulation_level short_tenor_days horizon_days
        day_count_base)

/-- The closed-form root the spec prescribes for the no-stub case:
`(target^(1/k) - 1) * dc / m`. -/
noncomputable def closed_form_root (target : ℝ) (k m dc : ℤ) : ℝ :=
  (target ^ ((k : ℝ))⁻¹ - 1) * (dc : ℝ) / (m : ℝ)

/-- A solver environment whose `nsolve` never converges and whose `solveEq`
returns no solution; used to exercise the failure paths. -/
def silent_env : SolverEnv :=
  { nsolve := fun _ _ => none, solveEq := fun _ _ _ _ => none }

open Classical in
/-- A sound and complete model of `sympy.solve` for the closed-form
equation: return a real solution whenever one exists. -/
noncomputable def choice_solve_eq (m dc k : ℤ) (target : ℝ) : Option ℝ :=
  if h : ∃ y : ℝ, (1 + y * (m : ℝ) / (dc : ℝ)) ^ k = target then some h.choose
  else none

/-- An environment whose `solveEq` is `choice_solve_eq`. -/
noncomputable def compliant_env : SolverEnv :=
  { nsolve := fun _ _ => none, solveEq := choice_solve_eq }

open Classical in
/-- A sound and complete `sympy.solve` model that, for the even-exponent
equation `(1 + y)^2 = 4`, lists the negative solution `-3` first — the
ascending order sympy customarily uses for numeric roots. -/
noncomputable def negative_first_env : SolverEnv :=
  { nsolve := fun _ _ => none
    solveEq := fun m dc k target =>
      if m = 1 ∧ dc = 1 ∧ k = 2 ∧ target = 4 then some (-3)
      else choice_solve_eq m dc k target }

open Classical in
/-- An `nsolve` model that proposes the root `1` whenever `1` passes the
`mpmath.findroot` verification `(f 1)^2 ≤ tol`, and otherwise raises. -/
noncomputable def residual_probe_env : SolverEnv :=
  { nsolve := fun f _ => if (f 1) ^ 2 ≤ nsolve_tol then some 1 else none
    solveEq := fun _ _ _ _ => none }

/-- A two-tenor analytics state (4- and 26-week bills at 5.3% and 4.3%) with
the default conventions. -/
def sample_state : AnalyticsState :=
  { ceyByWeeks := [(4, 53 / 1000), (26, 43 / 1000)]
    availableTenorsWeeks := [4, 26]
    dayCountBase := 365
    daysPerWeek := 7 }

/-- The single row the pair (4, 26) of `sample_state` produces under an
oracle that returns the yield `1`. -/
def sample_row : ResultRow :=
  { shorterWeeks := 4
    shorterCeyPct := 53 / 10
    longerWeeks := 26
    longerCeyPct := 43 / 10
    breakEvenPct := 100 }

/-- A two-tenor state whose day-count base (28) is shorter than a year,
separating the roles of horizon and day-count base. -/
def short_base_state : AnalyticsState :=
  { ceyByWeeks := [(4, 1 / 20), (5, 9 / 200)]
    availableTenorsWeeks := [4, 5]
    dayCountBase := 28
    daysPerWeek := 7 }

/-- C3: for positive `horizon_days` and `tenor_days` the decomposition
returns `(full_rolls, stub_days)` with `full_rolls ≥ 0`,
`full_rolls * tenor_days + stub_days = horizon_days`,
`0 ≤ stub_days < tenor_days`, and `full_rolls = ⌊horizon_days / tenor_days⌋`.
The function is a total pure function of its two arguments, so it is
deterministic and raises nothing. -/
theorem c3_decompose_horizon_correct (H t : ℤ) (hH : 0 < H) (ht : 0 < t) :
    0 ≤ (decompose_horizon_into_full_rolls_and_stub H t).1 ∧
    (decompose_horizon_into_full_rolls_and_stub H t).1 * t +
      (decompose_horizon_into_full_rolls_and_stub H t).2 = H ∧
    0 ≤ (decompose_horizon_into_full_rolls_and_stub H t).2 ∧
    (decompose_horizon_into_full_rolls_and_stub H t).2 < t ∧
    (decompose_horizon_into_full_rolls_and_stub H t).1 = ⌊(H : ℚ) / (t : ℚ)⌋ := by
  have hfd : Int.fdiv H t = H / t := Int.fdiv_eq_ediv H ht.le
  have hrm : H - H / t * t = H % t := by rw [Int.emod_def]; ring
  unfold decompose_horizon_into_full_rolls_and_stub
  simp only [hfd]
  refine ⟨Int.ediv_nonneg hH.le ht.le, by ring, ?_, ?_, ?_⟩
  · rw [hrm]; exact Int.emod_nonneg H (ne_of_gt ht)
  · rw [hrm]; exact Int.emod_lt_of_pos H ht
  · obtain ⟨n, rfl⟩ : ∃ n : ℕ, (n : ℤ) = t := ⟨t.toNat, Int.toNat_of_nonneg ht.le⟩
    rw [show (((n : ℤ) : ℚ)) = (n : ℚ) by push_cast; rfl]
    exact (Rat.floor_intCast_div_natCast H n).symm

/-- C3 witness: the default configuration, a 365-day horizon decomposed by a
28-day tenor into 13 full rolls and a 1-day stub. -/
theorem c3_witness :
    (0 : ℤ) < 365 ∧ (0 : ℤ) < 28 ∧
    (0 ≤ (decompose_horizon_into_full_rolls_and_stub 365 28).1 ∧
     (decompose_horizon_into_full_rolls_and_stub 365 28).1 * 28 +
       (decompose_horizon_into_full_rolls_and_stub 365 28).2 = 365 ∧
     0 ≤ (decompose_horizon_into_full_rolls_and_stub 365 28).2 ∧
     (decompose_horizon_into_full_rolls_and_stub 365 28).2 < 28 ∧
     (decompose_horizon_into_full_rolls_and_stub 365 28).1 = ⌊(365 : ℚ) / (28 : ℚ)⌋) :=
  ⟨by decide, by decide,
    c3_decompose_horizon_correct 365 28 (by decide) (by decide)⟩

/-- C5 (code bug): with the required columns present and exactly one tenor,
construction succeeds but `compute_break_even_rates` hits
`polars.from_dicts([])` on the empty pair list, which raises `NoDataError` —
the table computation errors instead of returning an empty table, for every
solver oracle and rounding precision. -/
theorem c5_single_tenor_raises_no_data :
    mkTreasuryBillAnalytics ⟨["maturity", "yield_pct"], [(4, 53 / 10)]⟩ 365 7 =
      Except.ok ⟨[(4, 53 / 1000)], [4], 365, 7⟩ ∧
    ∀ (solveY : ℚ → ℤ → ℤ → Option ℚ) (decimals : ℕ),
      compute_break_even_rates solveY ⟨[(4, 53 / 1000)], [4], 365, 7⟩ decimals =
        Except.error PolarsError.noData := by
  constructor
  · unfold mkTreasuryBillAnalytics
    rw [if_pos (by simp)]
    simp only [List.map]
    norm_num [pyDict, pyDictInsert, List.foldl, List.insertionSort,
      List.orderedInsert]
  · intro solveY decimals
    rfl

/-- C6 (amended): the code exposes no independent horizon parameter — it is
the spec's `compute_break_even_table` with `horizon_days` forced equal to the
day-count base: every decomposition, tenor-fit filter and solver call uses
`self.day_count_base` as the horizon, and the same value scales yields. -/
theorem c6_horizon_is_day_count_base
    (solveY : ℚ → ℤ → ℤ → Option ℚ) (s : AnalyticsState) (decimals : ℕ) :
    compute_break_even_rates solveY s decimals =
      compute_break_even_table_spec solveY s s.dayCountBase decimals := rfl

/-- C6 counterexample: with a 28-day day-count base, the code filters tenors
against 28 days and produces nothing, while the spec's operation with its
independent horizon of 365 days keeps the (4, 5)-week pair — so horizon and
day-count base cannot be set to different values in the code. -/
theorem c6_counterexample :
    compute_break_even_rates (fun _ _ _ => some 1) short_base_state 4 =
      Except.error PolarsError.noData ∧
    (compute_break_even_table_spec (fun _ _ _ => some 1) short_base_state 365 4).isOk
      = true := by
  exact ⟨by rfl, by decide⟩

/-- Any row of the pair loop's result list comes from a tenor pair that
passed all three skip conditions. -/
theorem mem_break_even_results
    {solveY : ℚ → ℤ → ℤ → Option ℚ} {s : AnalyticsState} {decimals : ℕ}
    {row : ResultRow} (h : row ∈ break_even_results solveY s decimals) :
    ∃ lw ∈ s.availableTenorsWeeks, ∃ sw ∈ s.availableTenorsWeeks,
      ¬ lw * s.daysPerWeek > s.dayCountBase ∧
      ¬ sw ≥ lw ∧
      ¬ sw * s.daysPerWeek > s.dayCountBase ∧
      row.longerWeeks = lw ∧ row.shorterWeeks = sw := by
  simp only [break_even_results, List.mem_flatMap] at h
  obtain ⟨lw, hlw, h⟩ := h
  by_cases h1 : lw * s.daysPerWeek > s.dayCountBase
  · rw [if_pos h1] at h
    simp at h
  · rw [if_neg h1] at h
    simp only [List.mem_flatMap] at h
    obtain ⟨sw, hsw, h⟩ := h
    by_cases h2 : sw ≥ lw
    · rw [if_pos h2] at h
      simp at h
    · rw [if_neg h2] at h
      by_cases h3 : sw * s.daysPerWeek > s.dayCountBase
      · rw [if_pos h3] at h
        simp at h
      · rw [if_neg h3] at h
        cases hsol : solveY
            (sympy_accumulation_factor_constant_cey
              (dictGet s.ceyByWeeks lw) (lw * s.daysPerWeek) s.dayCountBase
              s.dayCountBase)
            (sw * s.daysPerWeek) s.dayCountBase with
        | none =>
          rw [hsol] at h
          simp at h
        | some ybe =>
          rw [hsol] at h
          simp only [List.mem_singleton] at h
          exact ⟨lw, hlw, sw, hsw, h1, h2, h3, by rw [h], by rw [h]⟩

/-- C7: every ordered pair in which either leg's tenor length in days
(`tenor_weeks * days_per_week`) exceeds the horizon (the run's
`day_count_base`, cf. C6) is skipped before solving, so no row of a
successfully returned table has a leg exceeding the horizon. -/
theorem c7_tenor_exceeding_horizon_excluded
    (solveY : ℚ → ℤ → ℤ → Option ℚ) (s : AnalyticsState) (decimals : ℕ)
    (rows : List ResultRow)
    (hok : compute_break_even_rates solveY s decimals = Except.ok rows) :
    ∀ row ∈ rows, row.longerWeeks * s.daysPerWeek ≤ s.dayCountBase ∧
      row.shorterWeeks * s.daysPerWeek ≤ s.dayCountBase := by
  intro row hrow
  simp only [compute_break_even_rates] at hok
  split at hok
  · exact absurd hok (by simp)
  · rw [Except.ok.injEq] at hok
    have hmem : row ∈ break_even_results solveY s decimals :=
      ((List.perm_insertionSort rowLe _).mem_iff).mp (hok ▸ hrow)
    obtain ⟨lw, _, sw, _, h1, _, h3, hl, hs⟩ := mem_break_even_results hmem
    exact ⟨by rw [hl]; exact not_lt.mp h1, by rw [hs]; exact not_lt.mp h3⟩

/-- C7 witness: the 4- and 26-week pair with a 365-day base; the single
produced row satisfies both bounds. -/
theorem c7_witness :
    compute_break_even_rates (fun _ _ _ => some 1) sample_state 4 =
      Except.ok [sample_row] ∧
    ∀ row ∈ [sample_row], row.longerWeeks * sample_state.daysPerWeek ≤
        sample_state.dayCountBase ∧
      row.shorterWeeks * sample_state.daysPerWeek ≤ sample_state.dayCountBase := by
  have hok : compute_break_even_rates (fun _ _ _ => some 1) sample_state 4 =
      Except.ok [sample_row] := by
    have h0 : compute_break_even_rates (fun _ _ _ => some 1) sample_state 4 =
        Except.ok
          [{ shorterWeeks := 4
             shorterCeyPct :=
               pyRound 4 (100 * dictGet sample_state.ceyByWeeks 4)
             longerWeeks := 26
             longerCeyPct :=
               pyRound 4 (100 * dictGet sample_state.ceyByWeeks 26)
             breakEvenPct := pyRound 4 (100 * 1) }] := rfl
    have hlook4 : dictGet sample_state.ceyByWeeks 4 = 53 / 1000 := rfl
    have hlook26 : dictGet sample_state.ceyByWeeks 26 = 43 / 1000 := rfl
    rw [h0, hlook4, hlook26]
    simp only [sample_row, Except.ok.injEq, List.cons.injEq, and_true,
      ResultRow.mk.injEq]
    refine ⟨?_, ?_, ?_⟩ <;> norm_num [pyRound, roundHalfEven]
  exact ⟨hok, c7_tenor_exceeding_horizon_excluded _ sample_state 4 [sample_row] hok⟩

/-- C8: whenever the table computation returns rows, they are sorted by
longer maturity ascending and then shorter maturity ascending — the
`polars` sort applied before returning. -/
theorem c8_rows_sorted_by_longer_then_shorter
    (solveY : ℚ → ℤ → ℤ → Option ℚ) (s : AnalyticsState) (decimals : ℕ)
    (rows : List ResultRow)
    (hok : compute_break_even_rates solveY s decimals = Except.ok rows) :
    rows.Sorted rowLe := by
  simp only [compute_break_even_rates] at hok
  split at hok
  · exact absurd hok (by simp)
  · rw [Except.ok.injEq] at hok
    exact hok ▸ List.sorted_insertionSort rowLe _

/-- C8 witness: a concrete run returning one row, which is trivially
sorted. -/
theorem c8_witness :
    compute_break_even_rates (fun _ _ _ => some 1) sample_state 4 =
      Except.ok [sample_row] ∧
    List.Sorted rowLe [sample_row] := by
  have hok : compute_break_even_rates (fun _ _ _ => some 1) sample_state 4 =
      Except.ok [sample_row] := by
    have h0 : compute_break_even_rates (fun _ _ _ => some 1) sample_state 4 =
        Except.ok
          [{ shorterWeeks := 4
             shorterCeyPct :=
               pyRound 4 (100 * dictGet sample_state.ceyByWeeks 4)
             longerWeeks := 26
             longerCeyPct :=
               pyRound 4 (100 * dictGet sample_state.ceyByWeeks 26)
             breakEvenPct := pyRound 4 (100 * 1) }] := rfl
    have hlook4 : dictGet sample_state.ceyByWeeks 4 = 53 / 1000 := rfl
    have hlook26 : dictGet sample_state.ceyByWeeks 26 = 43 / 1000 := rfl
    rw [h0, hlook4, hlook26]
    simp only [sample_row, Except.ok.injEq, List.cons.injEq, and_true,
      ResultRow.mk.injEq]
    refine ⟨?_, ?_, ?_⟩ <;> norm_num [pyRound, roundHalfEven]
  exact ⟨hok,
    c8_rows_sorted_by_longer_then_shorter _ sample_state 4 [sample_row] hok⟩

/-- C9 (amended): a missing required column raises immediately at
construction; an input with the required columns but no rows is *not*
rejected at construction — the state is built with an empty tenor set, the
pair loop runs vacuously, and the error surfaces only at final table
assembly (`NoDataError` from building an empty table). -/
theorem c9_input_validation
    : (∀ (t : InputTable) (dc dpw : ℤ),
        ¬("maturity" ∈ t.columns ∧ "yield_pct" ∈ t.columns) →
        mkTreasuryBillAnalytics t dc dpw = Except.error InitError.missingColumns)
      ∧ (∀ (dc dpw : ℤ) (cols : List String),
          "maturity" ∈ cols → "yield_pct" ∈ cols →
          mkTreasuryBillAnalytics ⟨cols, []⟩ dc dpw =
            Except.ok ⟨[], [], dc, dpw⟩ ∧
          ∀ (solveY : ℚ → ℤ → ℤ → Option ℚ) (decimals : ℕ),
            compute_break_even_rates solveY ⟨[], [], dc, dpw⟩ decimals =
              Except.error PolarsError.noData) := by
  constructor
  · intro t dc dpw hmissing
    unfold mkTreasuryBillAnalytics
    rw [if_neg hmissing]
  · intro dc dpw cols hm hy
    constructor
    · unfold mkTreasuryBillAnalytics
      rw [if_pos ⟨hm, hy⟩]
      rfl
    · intro solveY decimals
      rfl

/-- C9 witness: a table missing `yield_pct` errors at construction; an
empty two-column table constructs fine yet the computation errors at table
assembly. -/
theorem c9_witness :
    mkTreasuryBillAnalytics ⟨["maturity"], []⟩ 365 7 =
      Except.error InitError.missingColumns ∧
    mkTreasuryBillAnalytics ⟨["maturity", "yield_pct"], []⟩ 365 7 =
      Except.ok ⟨[], [], 365, 7⟩ ∧
    compute_break_even_rates (fun _ _ _ => some 1) ⟨[], [], 365, 7⟩ 4 =
      Except.error PolarsError.noData :=
  ⟨c9_input_validation.1 ⟨["maturity"], []⟩ 365 7 (by simp),
   (c9_input_validation.2 365 7 ["maturity", "yield_pct"] (by simp) (by simp)).1,
   (c9_input_validation.2 365 7 ["maturity", "yield_pct"] (by simp)
     (by simp)).2 (fun _ _ _ => some 1) 4⟩

/-- C9 counterexample: the claim says an empty tenor set with the required
fields present is surfaced as an input error immediately at construction;
in fact construction succeeds. -/
theorem c9_counterexample :
    (mkTreasuryBillAnalytics ⟨["maturity", "yield_pct"], []⟩ 365 7).isOk = true := by
  rfl

theorem pyDict_append (l : List (ℤ × ℚ)) (p : ℤ × ℚ) :
    pyDict (l ++ [p]) = pyDictInsert (pyDict l) p.1 p.2 := by
  unfold pyDict
  rw [List.foldl_append]
  rfl

theorem keys_pyDictInsert_present {d : List (ℤ × ℚ)} {k : ℤ} (v : ℚ)
    (h : d.any (fun p => p.1 == k) = true) :
    (pyDictInsert d k v).map Prod.fst = d.map Prod.fst := by
  unfold pyDictInsert
  rw [if_pos h, List.map_map]
  apply List.map_congr_left
  intro p _
  simp only [Function.comp_apply]
  by_cases hp : p.1 = k
  · rw [if_pos hp]
    exact hp.symm
  · rw [if_neg hp]

theorem keys_pyDictInsert_absent {d : List (ℤ × ℚ)} {k : ℤ} (v : ℚ)
    (h : d.any (fun p => p.1 == k) = false) :
    (pyDictInsert d k v).map Prod.fst = d.map Prod.fst ++ [k] := by
  unfold pyDictInsert
  rw [if_neg (by simp [h])]
  simp

theorem not_mem_keys_of_any_false {d : List (ℤ × ℚ)} {k : ℤ}
    (h : d.any (fun p => p.1 == k) = false) : k ∉ d.map Prod.fst := by
  simp only [List.any_eq_false, beq_iff_eq] at h
  simp only [List.mem_map, not_exists]
  intro p hcon
  exact h p hcon.1 hcon.2

theorem nodup_keys_pyDict (l : List (ℤ × ℚ)) :
    ((pyDict l).map Prod.fst).Nodup := by
  induction l using List.reverseRecOn with
  | nil => simp [pyDict]
  | append_singleton l p ih =>
    rw [pyDict_append]
    cases h : (pyDict l).any (fun q => q.1 == p.1) with
    | true => rw [keys_pyDictInsert_present _ h]; exact ih
    | false =>
      rw [keys_pyDictInsert_absent _ h]
      rw [List.nodup_append]
      exact ⟨ih, List.nodup_singleton _,
        by simpa using not_mem_keys_of_any_false h⟩

theorem mem_keys_pyDict {l : List (ℤ × ℚ)} {k : ℤ} :
    k ∈ (pyDict l).map Prod.fst ↔ k ∈ l.map Prod.fst := by
  induction l using List.reverseRecOn with
  | nil => simp [pyDict]
  | append_singleton l p ih =>
    rw [pyDict_append, List.map_append]
    cases h : (pyDict l).any (fun q => q.1 == p.1) with
    | true =>
      rw [keys_pyDictInsert_present _ h]
      have hp : p.1 ∈ (pyDict l).map Prod.fst := by
        simp only [List.any_eq_true, beq_iff_eq] at h
        obtain ⟨q, hq, hq1⟩ := h
        exact List.mem_map.mpr ⟨q, hq, hq1⟩
      constructor
      · intro hk
        exact List.mem_append_left _ (ih.mp hk)
      · intro hk
        rcases List.mem_append.mp hk with hk | hk
        · exact ih.mpr hk
        · simp only [List.map_cons, List.map_nil, List.mem_singleton] at hk
          subst hk
          exact hp
    | false =>
      rw [keys_pyDictInsert_absent _ h]
      simp [ih]


theorem pyLookup_map_replace_self {d : List (ℤ × ℚ)} {k : ℤ} (v : ℚ)
    (h : d.any (fun p => p.1 == k) = true) :
    pyLookup k (d.map (fun p => if p.1 = k then (k, v) else p)) = some v := by
  induction d with
  | nil => simp at h
  | cons a d ih =>
    by_cases ha : a.1 = k
    · rw [List.map_cons, if_pos ha]
      simp [pyLookup]
    · have hh : d.any (fun p => p.1 == k) = true := by
        simp only [List.any_cons, Bool.or_eq_true, beq_iff_eq] at h
        rcases h with h | h
        · exact absurd h ha
        · simpa using h
      rw [List.map_cons, if_neg ha]
      simp only [pyLookup]
      rw [if_neg ha]
      exact ih hh

theorem pyLookup_map_replace_ne {d : List (ℤ × ℚ)} {k a : ℤ} (v : ℚ)
    (hne : a ≠ k) :
    pyLookup k (d.map (fun p => if p.1 = a then (a, v) else p)) =
      pyLookup k d := by
  induction d with
  | nil => rfl
  | cons q d ih =>
    rw [List.map_cons]
    by_cases hq : q.1 = a
    · rw [if_pos hq]
      simp only [pyLookup]
      rw [if_neg hne, if_neg (by rw [hq]; exact hne)]
      exact ih
    · rw [if_neg hq]
      simp only [pyLookup]
      by_cases hkq : q.1 = k
      · rw [if_pos hkq, if_pos hkq]
      · rw [if_neg hkq, if_neg hkq]
        exact ih

theorem pyLookup_append_singleton_self {d : List (ℤ × ℚ)} {k : ℤ} (v : ℚ)
    (h : d.any (fun p => p.1 == k) = false) :
    pyLookup k (d ++ [(k, v)]) = some v := by
  induction d with
  | nil => simp [pyLookup]
  | cons q d ih =>
    simp only [List.any_cons, Bool.or_eq_false_iff] at h
    rw [List.cons_append]
    simp only [pyLookup]
    rw [if_neg (by simpa using h.1)]
    exact ih h.2

theorem pyLookup_append_singleton_ne {d : List (ℤ × ℚ)} {k a : ℤ} (v : ℚ)
    (hne : a ≠ k) :
    pyLookup k (d ++ [(a, v)]) = pyLookup k d := by
  induction d with
  | nil => simp [pyLookup, hne]
  | cons q d ih =>
    rw [List.cons_append]
    simp only [pyLookup]
    by_cases hq : q.1 = k
    · rw [if_pos hq, if_pos hq]
    · rw [if_neg hq, if_neg hq]
      exact ih

theorem pyLookup_pyDictInsert_self (d : List (ℤ × ℚ)) (k : ℤ) (v : ℚ) :
    pyLookup k (pyDictInsert d k v) = some v := by
  unfold pyDictInsert
  by_cases h : d.any (fun p => p.1 == k) = true
  · rw [if_pos h]
    exact pyLookup_map_replace_self v h
  · rw [if_neg h]
    have hf : d.any (fun p => p.1 == k) = false := by
      cases hx : d.any (fun p => p.1 == k)
      · rfl
      · exact absurd hx h
    exact pyLookup_append_singleton_self v hf

theorem pyLookup_pyDictInsert_ne (d : List (ℤ × ℚ)) {k a : ℤ} (v : ℚ)
    (hne : a ≠ k) :
    pyLookup k (pyDictInsert d a v) = pyLookup k d := by
  unfold pyDictInsert
  by_cases h : d.any (fun p => p.1 == a) = true
  · rw [if_pos h]
    exact pyLookup_map_replace_ne v hne
  · rw [if_neg h]
    exact pyLookup_append_singleton_ne v hne

theorem pyLookup_pyDict_eq_getLast (l : List (ℤ × ℚ)) (k : ℤ) :
    pyLookup k (pyDict l) =
      ((l.filter (fun p => p.1 == k)).getLast?).map Prod.snd := by
  induction l using List.reverseRecOn with
  | nil => rfl
  | append_singleton l p ih =>
    rw [pyDict_append, List.filter_append]
    by_cases hp : p.1 = k
    · have h1 : pyLookup k (pyDictInsert (pyDict l) p.1 p.2) = some p.2 := by
        rw [hp]
        exact pyLookup_pyDictInsert_self _ _ _
      rw [h1, show List.filter (fun p => p.1 == k) [p] = [p] by simp [hp],
        List.getLast?_concat]
      rfl
    · rw [pyLookup_pyDictInsert_ne _ _ hp, ih,
        show List.filter (fun p => p.1 == k) [p] = [] by simp [hp],
        List.append_nil]

/-- C10: duplicate maturities in the input table are benign: construction
succeeds, the tenor→yield mapping keeps exactly one entry per tenor — the
yield of the last occurrence in input order (scaled to a decimal) — and
each such tenor appears exactly once in the sorted tenor list. -/
theorem c10_duplicate_maturities (t : InputTable) (dc dpw : ℤ)
    (hm : "maturity" ∈ t.columns) (hy : "yield_pct" ∈ t.columns) :
    ∃ s, mkTreasuryBillAnalytics t dc dpw = Except.ok s ∧
      (s.ceyByWeeks.map Prod.fst).Nodup ∧
      ∀ k ∈ t.rows.map Prod.fst,
        pyLookup k s.ceyByWeeks =
          ((t.rows.filter (fun p => p.1 == k)).getLast?).map
            (fun p => p.2 / 100) ∧
        s.availableTenorsWeeks.count k = 1 := by
  refine ⟨{ ceyByWeeks := pyDict (t.rows.map (fun r => (r.1, r.2 / 100)))
            availableTenorsWeeks :=
              ((pyDict (t.rows.map (fun r => (r.1, r.2 / 100)))).map
                Prod.fst).insertionSort (· ≤ ·)
            dayCountBase := dc
            daysPerWeek := dpw }, ?_, nodup_keys_pyDict _, ?_⟩
  · unfold mkTreasuryBillAnalytics
    rw [if_pos ⟨hm, hy⟩]
  · intro k hk
    constructor
    · rw [pyLookup_pyDict_eq_getLast]
      have hfilter :
          (t.rows.map (fun r => (r.1, r.2 / 100))).filter
              (fun p => p.1 == k) =
            (t.rows.filter (fun p => p.1 == k)).map
              (fun r => (r.1, r.2 / 100)) := by
        rw [List.filter_map]
        rfl
      rw [hfilter, List.getLast?_map, Option.map_map]
      rfl
    · rw [(List.perm_insertionSort (α := ℤ) (· ≤ ·) _).count_eq]
      refine List.count_eq_one_of_mem (nodup_keys_pyDict _) ?_
      rw [mem_keys_pyDict]
      have hkeys : (t.rows.map (fun r => (r.1, r.2 / 100))).map Prod.fst =
          t.rows.map Prod.fst := by
        rw [List.map_map]
        rfl
      rw [hkeys]
      exact hk

/-- C10 witness: two rows for the 4-week tenor (5% then 5.5%); the mapping
keeps the last yield and the sorted tenor list holds 4 exactly once. -/
theorem c10_witness :
    ∃ s, mkTreasuryBillAnalytics
        ⟨["maturity", "yield_pct"], [(4, 5), (4, 11 / 2)]⟩ 365 7 =
        Except.ok s ∧
      (s.ceyByWeeks.map Prod.fst).Nodup ∧
      ∀ k ∈ ([(4, 5), (4, 11 / 2)] : List (ℤ × ℚ)).map Prod.fst,
        pyLookup k s.ceyByWeeks =
          ((([(4, 5), (4, 11 / 2)] : List (ℤ × ℚ)).filter
            (fun p => p.1 == k)).getLast?).map (fun p => p.2 / 100) ∧
        s.availableTenorsWeeks.count k = 1 :=
  c10_duplicate_maturities
    ⟨["maturity", "yield_pct"], [(4, 5), (4, 11 / 2)]⟩ 365 7
    (by simp) (by simp)

theorem abs_le_of_sq_le_tol {x : ℝ} (h : x ^ 2 ≤ nsolve_tol) :
    |x| ≤ 1 / 10 ^ 8 := by
  by_contra hc
  push_neg at hc
  have h1 : ((1 : ℝ) / 10 ^ 8) ^ 2 < |x| ^ 2 :=
    pow_lt_pow_left₀ hc (by positivity) (by norm_num)
  rw [sq_abs] at h1
  have h2 : ((1 : ℝ) / 10 ^ 8) ^ 2 = nsolve_tol := by
    norm_num [nsolve_tol]
  linarith

theorem try_seeds_eq_some {env : SolverEnv} {f : ℝ → ℝ} {m r dc : ℤ}
    {L : List ℝ} {y : ℝ}
    (h : try_seeds env f m r dc L = some y) :
    (∃ seed ∈ L, env.nsolve f seed = some y) ∧
      0 < 1 + y * (m : ℝ) / (dc : ℝ) ∧ 0 < 1 + y * (r : ℝ) / (dc : ℝ) := by
  induction L with
  | nil => simp [try_seeds] at h
  | cons seed rest ih =>
    cases hns : env.nsolve f seed with
    | none =>
      simp only [try_seeds, hns] at h
      obtain ⟨⟨s, hs, h1⟩, h2, h3⟩ := ih h
      exact ⟨⟨s, List.mem_cons_of_mem _ hs, h1⟩, h2, h3⟩
    | some root =>
      simp only [try_seeds, hns] at h
      by_cases hfeas : 0 < 1 + root * (m : ℝ) / (dc : ℝ) ∧
          0 < 1 + root * (r : ℝ) / (dc : ℝ)
      · rw [if_pos hfeas] at h
        obtain rfl : root = y := Option.some.inj h
        exact ⟨⟨seed, List.mem_cons_self _ _, hns⟩, hfeas.1, hfeas.2⟩
      · rw [if_neg hfeas] at h
        obtain ⟨⟨s, hs, h1⟩, h2, h3⟩ := ih h
        exact ⟨⟨s, List.mem_cons_of_mem _ hs, h1⟩, h2, h3⟩

theorem try_seeds_eq_none {env : SolverEnv} {f : ℝ → ℝ} {m r dc : ℤ}
    {L : List ℝ}
    (h : ∀ seed ∈ L, ∀ root, env.nsolve f seed = some root →
      ¬(0 < 1 + root * (m : ℝ) / (dc : ℝ) ∧
        0 < 1 + root * (r : ℝ) / (dc : ℝ))) :
    try_seeds env f m r dc L = none := by
  induction L with
  | nil => simp [try_seeds]
  | cons seed rest ih =>
    cases hns : env.nsolve f seed with
    | none =>
      simp only [try_seeds, hns]
      exact ih (fun s hs => h s (List.mem_cons_of_mem _ hs))
    | some root =>
      simp only [try_seeds, hns]
      rw [if_neg (h seed (List.mem_cons_self _ _) root hns)]
      exact ih (fun s hs => h s (List.mem_cons_of_mem _ hs))

theorem solver_zero_roll (env : SolverEnv) (target : ℝ) (m H dc k r : ℤ)
    (hdec : decompose_horizon_into_full_rolls_and_stub H m = (k, r))
    (hk : k ≤ 0) :
    solve_y_be_self_consistent_against_accumulation_level env target m H dc =
      none := by
  simp only [solve_y_be_self_consistent_against_accumulation_level]
  rw [hdec]
  dsimp only
  rw [if_pos hk]

theorem solver_no_stub_branch (env : SolverEnv) (target : ℝ) (m H dc k : ℤ)
    (hdec : decompose_horizon_into_full_rolls_and_stub H m = (k, 0))
    (hk1 : 1 ≤ k) :
    solve_y_be_self_consistent_against_accumulation_level env target m H dc =
      match env.solveEq m dc k target with
      | none => none
      | some y => some y := by
  simp only [solve_y_be_self_consistent_against_accumulation_level]
  rw [hdec]
  dsimp only
  rw [if_neg (by omega), if_pos rfl]

theorem solver_stub_branch (env : SolverEnv) (target : ℝ) (m H dc k r : ℤ)
    (hdec : decompose_horizon_into_full_rolls_and_stub H m = (k, r))
    (hk1 : 1 ≤ k) (hr : r ≠ 0) :
    solve_y_be_self_consistent_against_accumulation_level env target m H dc =
      try_seeds env (accumulation_residual target m H dc) m r dc
        (nsolve_seeds target m H dc) := by
  simp only [solve_y_be_self_consistent_against_accumulation_level]
  rw [hdec]
  dsimp only
  rw [if_neg (by omega), if_neg hr]

theorem closed_form_root_solves (target : ℝ) (k m dc : ℤ)
    (hA : 0 < target) (hk1 : 1 ≤ k) (hm : m ≠ 0) (hdc : dc ≠ 0) :
    (1 + closed_form_root target k m dc * (m : ℝ) / (dc : ℝ)) ^ k = target := by
  have hmR : (m : ℝ) ≠ 0 := Int.cast_ne_zero.mpr hm
  have hdcR : (dc : ℝ) ≠ 0 := Int.cast_ne_zero.mpr hdc
  have hbase : 1 + closed_form_root target k m dc * (m : ℝ) / (dc : ℝ) =
      target ^ ((k : ℝ))⁻¹ := by
    unfold closed_form_root
    field_simp
  rw [hbase]
  obtain ⟨n, rfl⟩ : ∃ n : ℕ, (n : ℤ) = k :=
    ⟨k.toNat, Int.toNat_of_nonneg (by omega)⟩
  have hn : n ≠ 0 := by omega
  have hnR : (n : ℝ) ≠ 0 := Nat.cast_ne_zero.mpr hn
  rw [zpow_natCast, show (((n : ℤ) : ℝ))⁻¹ = ((n : ℝ))⁻¹ by push_cast; rfl,
    ← Real.rpow_natCast (target ^ ((n : ℝ))⁻¹) n, ← Real.rpow_mul hA.le,
    inv_mul_cancel₀ hnR, Real.rpow_one]

theorem closed_form_root_unique (target : ℝ) (k m dc : ℤ) (y : ℝ)
    (hodd : Odd k) (hk1 : 1 ≤ k) (hm : m ≠ 0) (hdc : dc ≠ 0) (hA : 0 < target)
    (hy : (1 + y * (m : ℝ) / (dc : ℝ)) ^ k = target) :
    y = closed_form_root target k m dc := by
  have hroot := closed_form_root_solves target k m dc hA hk1 hm hdc
  obtain ⟨n, rfl⟩ : ∃ n : ℕ, (n : ℤ) = k :=
    ⟨k.toNat, Int.toNat_of_nonneg (by omega)⟩
  rw [zpow_natCast] at hy hroot
  have hoddn : Odd n := by
    obtain ⟨j, hj⟩ := hodd
    exact ⟨j.toNat, by omega⟩
  have heq := (Odd.strictMono_pow (R := ℝ) hoddn).injective
    (hy.trans hroot.symm)
  have hmR : (m : ℝ) ≠ 0 := Int.cast_ne_zero.mpr hm
  have hdcR : (dc : ℝ) ≠ 0 := Int.cast_ne_zero.mpr hdc
  have h1 : y * (m : ℝ) / (dc : ℝ) =
      closed_form_root target (↑n) m dc * (m : ℝ) / (dc : ℝ) := by
    linarith
  field_simp at h1
  rcases h1 with h1 | h1
  · exact h1
  · exact absurd h1 hm

/-- C1 (amended): in the no-stub case with `k_short` odd (this includes
`k_short = 1`), under the soundness/completeness contract of the algebra
engine, the solver returns — without any call to the numeric root-finder —
`y = (A_long^(1/k_short) - 1) * dc/m_short`, which is the unique real root
of `(1 + y*m_short/dc)^k_short = A_long` and satisfies it exactly.  For even
`k_short` the equation has a second real root and the closed-form branch
performs no feasibility check, so which root is returned depends on the
engine's solution ordering (see the counterexample). -/
theorem c1_no_stub_closed_form (env : SolverEnv)
    (hsound : SolveEqSound env) (hcomplete : SolveEqComplete env)
    (target : ℝ) (m H dc k : ℤ)
    (hdec : decompose_horizon_into_full_rolls_and_stub H m = (k, 0))
    (hm : 0 < m) (hdc : 0 < dc) (hk1 : 1 ≤ k) (hodd : Odd k)
    (hA : 0 < target) :
    solve_y_be_self_consistent_against_accumulation_level env target m H dc =
      some (closed_form_root target k m dc) ∧
    (1 + closed_form_root target k m dc * (m : ℝ) / (dc : ℝ)) ^ k = target ∧
    (∀ y : ℝ, (1 + y * (m : ℝ) / (dc : ℝ)) ^ k = target →
      y = closed_form_root target k m dc) ∧
    (∀ ns, solve_y_be_self_consistent_against_accumulation_level
        { env with nsolve := ns } target m H dc =
      solve_y_be_self_consistent_against_accumulation_level env target m H dc) := by
  have hroot := closed_form_root_solves target k m dc hA hk1 (by omega) (by omega)
  have huniq : ∀ y : ℝ, (1 + y * (m : ℝ) / (dc : ℝ)) ^ k = target →
      y = closed_form_root target k m dc := fun y hy =>
    closed_form_root_unique target k m dc y hodd hk1 (by omega) (by omega) hA hy
  obtain ⟨y, hy⟩ := Option.isSome_iff_exists.mp
    (hcomplete m dc k target ⟨_, hroot⟩)
  have hy_eq : y = closed_form_root target k m dc :=
    huniq y (hsound m dc k target y hy)
  refine ⟨?_, hroot, huniq, ?_⟩
  · rw [solver_no_stub_branch env target m H dc k hdec hk1, hy, ← hy_eq]
  · intro ns
    rw [solver_no_stub_branch env target m H dc k hdec hk1,
      solver_no_stub_branch { env with nsolve := ns } target m H dc k hdec hk1]

theorem choice_solve_eq_spec {m dc k : ℤ} {target y : ℝ}
    (h : choice_solve_eq m dc k target = some y) :
    (1 + y * (m : ℝ) / (dc : ℝ)) ^ k = target := by
  unfold choice_solve_eq at h
  split at h
  · rename_i hex
    obtain rfl : hex.choose = y := Option.some.inj h
    exact hex.choose_spec
  · exact absurd h (by simp)

theorem choice_solve_eq_complete {m dc k : ℤ} {target : ℝ}
    (h : ∃ y : ℝ, (1 + y * (m : ℝ) / (dc : ℝ)) ^ k = target) :
    (choice_solve_eq m dc k target).isSome := by
  unfold choice_solve_eq
  rw [dif_pos h]
  rfl

theorem compliant_env_sound : SolveEqSound compliant_env :=
  fun _ _ _ _ _ h => choice_solve_eq_spec h

theorem compliant_env_complete : SolveEqComplete compliant_env :=
  fun _ _ _ _ h => choice_solve_eq_complete h

/-- C1 witness: one 365-day roll (`k = 1`, odd) against target accumulation
2; the solver returns the closed-form root exactly solving the equation. -/
theorem c1_witness :
    solve_y_be_self_consistent_against_accumulation_level compliant_env 2
        365 365 365 =
      some (closed_form_root 2 1 365 365) ∧
    (1 + closed_form_root 2 1 365 365 * ((365 : ℤ) : ℝ) / ((365 : ℤ) : ℝ))
        ^ (1 : ℤ) = 2 := by
  have h := c1_no_stub_closed_form compliant_env compliant_env_sound
    compliant_env_complete 2 365 365 365 1 (by decide) (by decide) (by decide)
    (by decide) ⟨0, by norm_num⟩ (by norm_num)
  exact ⟨h.1, h.2.1⟩

theorem negative_first_env_sound : SolveEqSound negative_first_env := by
  intro m dc k target y h
  simp only [negative_first_env] at h
  split at h
  · rename_i hc
    obtain ⟨rfl, rfl, rfl, rfl⟩ := hc
    obtain rfl : (-3 : ℝ) = y := Option.some.inj h
    push_cast
    rw [show ((2 : ℤ)) = ((2 : ℕ) : ℤ) from rfl, zpow_natCast]
    norm_num
  · exact choice_solve_eq_spec h

theorem negative_first_env_complete : SolveEqComplete negative_first_env := by
  intro m dc k target h
  simp only [negative_first_env]
  split
  · rfl
  · exact choice_solve_eq_complete h

/-- C1 counterexample: for the even-exponent no-stub instance
`(1 + y)^2 = 4` (`m = dc = 1`, `H = 2`, so `k = 2`, `r = 0`), an algebra
engine satisfying the soundness and completeness contract that lists the
negative solution first — the ascending numeric order sympy customarily
returns — makes the solver return `-3`, not the closed-form value `1` the
claim prescribes, and `-3` even fails the economic feasibility requirement
`1 + y*m/dc > 0`.  The claim is therefore false as stated for even roll
counts. -/
theorem c1_counterexample :
    SolveEqSound negative_first_env ∧ SolveEqComplete negative_first_env ∧
    solve_y_be_self_consistent_against_accumulation_level negative_first_env
        4 1 2 1 = some (-3) ∧
    closed_form_root 4 2 1 1 = 1 ∧
    ¬ (0 : ℝ) < 1 + (-3) * ((1 : ℤ) : ℝ) / ((1 : ℤ) : ℝ) := by
  refine ⟨negative_first_env_sound, negative_first_env_complete, ?_, ?_, ?_⟩
  · rw [solver_no_stub_branch negative_first_env 4 1 2 1 2 (by decide)
      (by norm_num)]
    simp only [negative_first_env]
    rw [if_pos (by norm_num)]
  · unfold closed_form_root
    rw [show ((4 : ℝ)) = 2 ^ ((2 : ℕ) : ℝ) by
      rw [Real.rpow_natCast]; norm_num]
    rw [← Real.rpow_mul (by norm_num)]
    push_cast
    norm_num
  · push_cast
    norm_num

/-- C2 (amended): in the stub case, any yield the solver returns satisfies
the defining equation residual to within `1e-8` — the bound enforced by the
numeric solver's final verification, which checks the *squared* residual
against the `1e-16` tolerance — and both period-growth terms are strictly
positive (the feasibility check of the source).  The claimed `1e-10` bound
is not guaranteed by the code (see the counterexample). -/
theorem c2_stub_residual_and_feasibility (env : SolverEnv)
    (hns : NsolveSound env) (target : ℝ) (m H dc k r : ℤ) (y : ℝ)
    (hdec : decompose_horizon_into_full_rolls_and_stub H m = (k, r))
    (hr : 0 < r)
    (hret : solve_y_be_self_consistent_against_accumulation_level env target
      m H dc = some y) :
    |accumulation_residual target m H dc y| ≤ 1 / 10 ^ 8 ∧
    0 < 1 + y * (m : ℝ) / (dc : ℝ) ∧ 0 < 1 + y * (r : ℝ) / (dc : ℝ) := by
  by_cases hk : k ≤ 0
  · rw [solver_zero_roll env target m H dc k r hdec hk] at hret
    exact absurd hret (by simp)
  · rw [solver_stub_branch env target m H dc k r hdec (by omega)
      (by omega)] at hret
    obtain ⟨⟨seed, _, hsome⟩, h2, h3⟩ := try_seeds_eq_some hret
    exact ⟨abs_le_of_sq_le_tol (hns _ _ _ hsome), h2, h3⟩

/-- The residual of the witness instance is zero: target 6, a 2-day tenor
over a 3-day horizon with day-count base 1 (`k = 1`, `r = 1`), at yield 1:
`(1 + 2)^1 * (1 + 1) - 6 = 0`. -/
theorem residual_at_witness_instance :
    accumulation_residual 6 2 3 1 1 = 0 := by
  simp only [accumulation_residual]
  rw [show decompose_horizon_into_full_rolls_and_stub 3 2 = (1, 1)
    from by decide]
  dsimp only
  push_cast
  rw [zpow_one]
  norm_num

theorem residual_probe_env_sound : NsolveSound residual_probe_env := by
  intro f seed root h
  simp only [residual_probe_env] at h
  split at h
  · rename_i hc
    obtain rfl : (1 : ℝ) = root := Option.some.inj h
    exact hc
  · exact absurd h (by simp)

/-- The probe environment accepts the exact root 1 at the first seed of the
witness instance. -/
theorem probe_solver_at_witness_instance :
    solve_y_be_self_consistent_against_accumulation_level residual_probe_env
      6 2 3 1 = some 1 := by
  rw [solver_stub_branch residual_probe_env 6 2 3 1 1 1 (by decide)
    (by norm_num) (by norm_num)]
  simp only [nsolve_seeds, try_seeds, residual_probe_env,
    residual_at_witness_instance]
  rw [if_pos (by norm_num [nsolve_tol] : (0 : ℝ) ^ 2 ≤ nsolve_tol)]
  dsimp only
  rw [if_pos (by constructor <;> (push_cast; norm_num))]

/-- C2 witness: the probe environment is a sound `nsolve` model; on the
stub instance it returns the exact root 1, whose residual is within the
bound and whose growth terms are positive. -/
theorem c2_witness :
    NsolveSound residual_probe_env ∧
    (|accumulation_residual 6 2 3 1 1| ≤ 1 / 10 ^ 8 ∧
     0 < 1 + 1 * ((2 : ℤ) : ℝ) / ((1 : ℤ) : ℝ) ∧
     0 < 1 + 1 * ((1 : ℤ) : ℝ) / ((1 : ℤ) : ℝ)) :=
  ⟨residual_probe_env_sound,
   c2_stub_residual_and_feasibility residual_probe_env
     residual_probe_env_sound 6 2 3 1 1 1 1 (by decide) (by norm_num)
     probe_solver_at_witness_instance⟩

/-- Perturbing the target by `1e-9` makes the exact root 1 leave a residual
of exactly `1e-9`. -/
theorem residual_at_perturbed_instance :
    accumulation_residual (6 - 1 / 10 ^ 9) 2 3 1 1 = 1 / 10 ^ 9 := by
  simp only [accumulation_residual]
  rw [show decompose_horizon_into_full_rolls_and_stub 3 2 = (1, 1)
    from by decide]
  dsimp only
  push_cast
  rw [zpow_one]
  norm_num

/-- C2 counterexample: the numeric solver's verification only bounds the
*squared* residual by the `1e-16` tolerance, so a root with residual `1e-9`
passes it.  Under a sound `nsolve` model returning such a root, the solver
returns a yield whose equation residual exceeds the claimed `1e-10`. -/
theorem c2_counterexample :
    NsolveSound residual_probe_env ∧
    solve_y_be_self_consistent_against_accumulation_level residual_probe_env
      (6 - 1 / 10 ^ 9) 2 3 1 = some 1 ∧
    ¬ |accumulation_residual (6 - 1 / 10 ^ 9) 2 3 1 1| ≤ 1 / 10 ^ 10 := by
  refine ⟨residual_probe_env_sound, ?_, ?_⟩
  · rw [solver_stub_branch residual_probe_env (6 - 1 / 10 ^ 9) 2 3 1 1 1
      (by decide) (by norm_num) (by norm_num)]
    simp only [nsolve_seeds, try_seeds, residual_probe_env,
      residual_at_perturbed_instance]
    rw [if_pos (by norm_num [nsolve_tol] :
      ((1 : ℝ) / 10 ^ 9) ^ 2 ≤ nsolve_tol)]
    dsimp only
    rw [if_pos (by constructor <;> (push_cast; norm_num))]
  · rw [residual_at_perturbed_instance, abs_of_pos (by norm_num)]
    norm_num

/-- C4: in the stub case, when for every one of the three seeds (the
fractional-roll guess and the guess shifted by minus and plus 0.02, in that
order) the numeric solver either fails to converge or converges only to a
root violating a feasibility check, the solver returns `nan` (modelled as
`none`), which the caller's `math.isfinite` filter drops from the table.
The solver is a total function of its arguments — the seed loop catches
every solver exception — so no exception reaches the caller. -/
theorem c4_no_feasible_seed_gives_nan (env : SolverEnv)
    (target : ℝ) (m H dc k r : ℤ)
    (hdec : decompose_horizon_into_full_rolls_and_stub H m = (k, r))
    (hr : 0 < r)
    (hfail : ∀ seed ∈ nsolve_seeds target m H dc, ∀ root,
      env.nsolve (accumulation_residual target m H dc) seed = some root →
      ¬(0 < 1 + root * (m : ℝ) / (dc : ℝ) ∧
        0 < 1 + root * (r : ℝ) / (dc : ℝ))) :
    solve_y_be_self_consistent_against_accumulation_level env target m H dc =
      none := by
  by_cases hk : k ≤ 0
  · exact solver_zero_roll env target m H dc k r hdec hk
  · rw [solver_stub_branch env target m H dc k r hdec (by omega) (by omega)]
    exact try_seeds_eq_none hfail

/-- C4 witness: an environment whose `nsolve` never converges at any seed;
the stub-case pair (target 6, 2-day tenor, 3-day horizon, base 1) solves to
`nan`. -/
theorem c4_witness :
    solve_y_be_self_consistent_against_accumulation_level silent_env 6 2 3 1 =
      none :=
  c4_no_feasible_seed_gives_nan silent_env 6 2 3 1 1 1 (by decide)
    (by norm_num)
    (fun seed _ root h => absurd h (by simp [silent_env]))
